import Mathlib

/-!
Verification development for the Osbyte repository: a shallow embedding of
the filesystem helper stubs found in `src/shared/files/helpers.c`, together
with models of the network-stack components described in the design
document (routing table, TCP state machine and stream reassembly, DNS
resolver cache, neighbor cache, DHCP lease state machine).
-/

namespace Osbyte

/-! ## Filesystem helpers (`src/shared/files/helpers.c`, non-CROSS build)

The three functions in the `#ifndef CROSS` block are stubs: each prints a
fixed diagnostic via `print` and does nothing else.  We embed them as pure
functions from an abstract program state to a pair of the (unchanged)
state and a trace of observable effects; the null pointer returned by the
two `char*` functions is `Option.none`. -/

/-- An observable effect of a filesystem-helper call: a console print, or
an invocation of the caller-supplied `dir_traverse` callback. -/
inductive FsEffect where
  | printed (msg : String)
  | invokedCallback
  deriving DecidableEq, Repr

/-- Diagnostic printed by `traverse_directory`. -/
def fsErrTraverse : String :=
  "[FS implementation error] Traverse directory not implemented for [Osbyte]"

/-- Diagnostic printed by `get_current_dir`. -/
def fsErrCurrentDir : String :=
  "[FS implementation error] Current directory not implemented for [Osbyte]"

/-- Diagnostic printed by `gethomedir`. -/
def fsErrHomeDir : String :=
  "[FS implementation error] Home directory not implemented for [Osbyte]"

/-- `traverse_directory(char *directory, bool recursive, dir_traverse func)`
from `helpers.c` (non-CROSS): prints a fixed diagnostic and returns.  The
state type `σ` stands for all mutable program state, `α` for the type of
the function-pointer argument. -/
def traverse_directory {σ α : Type} (st : σ) (directory : String)
    (recFlag : Bool) (func : α) : σ × List FsEffect :=
  (st, [FsEffect.printed fsErrTraverse])

/-- `char* get_current_dir()` from `helpers.c` (non-CROSS): prints a fixed
diagnostic and returns the null pointer. -/
def get_current_dir {σ : Type} (st : σ) : σ × List FsEffect × Option String :=
  (st, [FsEffect.printed fsErrCurrentDir], none)

/-- `char* gethomedir()` from `helpers.c` (non-CROSS): prints a fixed
diagnostic and returns the null pointer. -/
def gethomedir {σ : Type} (st : σ) : σ × List FsEffect × Option String :=
  (st, [FsEffect.printed fsErrHomeDir], none)

/-! ## Routing table

Modelled from the spec: the repository's routing-table code is not under
`src/`; §4.2 and §3 of the design document specify longest-prefix-match
lookup with ties broken by lowest metric then interface index. -/

/-- Modelled from the spec: a route entry (§3 Data Model): destination
prefix, prefix length, interface index, metric.  (The next hop plays no
role in lookup selection and is omitted.) -/
structure Route where
  prefixBits : Nat
  prefixLen : Nat
  ifindex : Nat
  metric : Nat
  deriving DecidableEq, Repr

/-- Modelled from the spec: an IPv4 address `a.b.c.d` as a 32-bit number. -/
def ipv4 (a b c d : Nat) : Nat :=
  ((a % 256) <<< 24) + ((b % 256) <<< 16) + ((c % 256) <<< 8) + (d % 256)

/-- Modelled from the spec: a destination address matches a route when the
address agrees with the route's prefix on the first `prefixLen` bits. -/
def routeMatches (r : Route) (addr : Nat) : Bool :=
  addr >>> (32 - r.prefixLen) = r.prefixBits >>> (32 - r.prefixLen)

/-- Modelled from the spec: route `r` is strictly preferred to route `s`:
longer matching prefix, or same length and lower metric, or same length
and metric and lower interface index. -/
def routeBetter (r s : Route) : Bool :=
  s.prefixLen < r.prefixLen ∨
    (r.prefixLen = s.prefixLen ∧
      (r.metric < s.metric ∨ (r.metric = s.metric ∧ r.ifindex < s.ifindex)))

/-- Modelled from the spec: one scan step of route lookup: a matching
route becomes the current best when there is none yet or when it is
strictly preferred to the current best. -/
def lookupStep (addr : Nat) (best : Option Route) (r : Route) : Option Route :=
  if routeMatches r addr then
    match best with
    | none => some r
    | some b => if routeBetter r b then some r else some b
  else best

/-- Modelled from the spec: longest-prefix-match lookup (§4.2): scan the
table keeping the best matching route under `routeBetter`. -/
def lookup (table : List Route) (addr : Nat) : Option Route :=
  table.foldl (lookupStep addr) none

/-! ## TCP connection state machine

Modelled from the spec: the repository's TCP code is not under `src/`;
§4.5 of the design document specifies the states and transitions,
including the RST rule. -/

/-- Modelled from the spec: TCP connection states (§4.5). -/
inductive TcpState where
  | CLOSED
  | LISTEN
  | SYN_SENT
  | SYN_RECEIVED
  | ESTABLISHED
  | FIN_WAIT_1
  | FIN_WAIT_2
  | CLOSE_WAIT
  | CLOSING
  | LAST_ACK
  | TIME_WAIT
  deriving DecidableEq, Repr

/-- Modelled from the spec: events driving the TCP state machine (§4.5):
API calls (active open, close), received segments distinguished by flags
(SYN, SYN+ACK, ACK, FIN, RST), and the TIME_WAIT timeout. -/
inductive TcpEvent where
  | apiActiveOpen
  | apiClose
  | rcvSyn
  | rcvSynAck
  | rcvAck
  | rcvFin
  | rcvRst
  | timeWaitTimeout
  deriving DecidableEq, Repr

/-- Modelled from the spec: an error reported to the owning socket. -/
inductive SockError where
  | reset
  deriving DecidableEq, Repr

/-- Modelled from the spec: the TCP transition function (§4.5).  Active
open sends SYN and enters SYN_SENT; SYN+ACK in SYN_SENT answers with ACK
and enters ESTABLISHED; passive open from LISTEN answers a SYN with
SYN+ACK entering SYN_RECEIVED, then ACK completes to ESTABLISHED; close
walks FIN_WAIT_1 / FIN_WAIT_2 / TIME_WAIT (or CLOSE_WAIT / LAST_ACK for
peer-initiated close, CLOSING for simultaneous close); a RST in any state
other than LISTEN forces CLOSED and records a reset error, while LISTEN
ignores it. -/
def tcpStep (s : TcpState) (e : TcpEvent) : TcpState × Option SockError :=
  match e with
  | .rcvRst => if s = .LISTEN then (.LISTEN, none) else (.CLOSED, some .reset)
  | .apiActiveOpen => match s with
    | .CLOSED => (.SYN_SENT, none)
    | _ => (s, none)
  | .rcvSynAck => match s with
    | .SYN_SENT => (.ESTABLISHED, none)
    | _ => (s, none)
  | .rcvSyn => match s with
    | .LISTEN => (.SYN_RECEIVED, none)
    | _ => (s, none)
  | .rcvAck => match s with
    | .SYN_RECEIVED => (.ESTABLISHED, none)
    | .FIN_WAIT_1 => (.FIN_WAIT_2, none)
    | .CLOSING => (.TIME_WAIT, none)
    | .LAST_ACK => (.CLOSED, none)
    | _ => (s, none)
  | .apiClose => match s with
    | .ESTABLISHED => (.FIN_WAIT_1, none)
    | .CLOSE_WAIT => (.LAST_ACK, none)
    | _ => (s, none)
  | .rcvFin => match s with
    | .ESTABLISHED => (.CLOSE_WAIT, none)
    | .FIN_WAIT_1 => (.CLOSING, none)
    | .FIN_WAIT_2 => (.TIME_WAIT, none)
    | _ => (s, none)
  | .timeWaitTimeout => match s with
    | .TIME_WAIT => (.CLOSED, none)
    | _ => (s, none)

/-! ## TCP receive-side reassembly and in-order delivery

Modelled from the spec: §4.5 data transfer: the receive side reorders
out-of-order segments and delivers only the contiguous prefix to the
application buffer; duplicate (already-delivered) segments are dropped;
retransmission ensures every segment is eventually delivered at least
once.  We model the sent stream as a list of bytes and a segment as a
pair of its sequence number and payload byte; the wire is an arbitrary
schedule (a list of sequence numbers), which expresses any pattern of
loss of individual transmissions, reordering, and duplication. -/

/-- Modelled from the spec: TCP receiver state: the out-of-order store
(sequence number, payload) of segments held back for reordering, the next
expected sequence number, and the bytes already delivered in order to the
application buffer. -/
structure TcpRcv where
  ooo : List (Nat × Nat)
  nxt : Nat
  delivered : List Nat
  deriving DecidableEq, Repr

/-- Look a sequence number up in the out-of-order store. -/
def oooFind (ooo : List (Nat × Nat)) (k : Nat) : Option Nat :=
  match ooo with
  | [] => none
  | p :: rest => if p.1 = k then some p.2 else oooFind rest k

/-- Remove the first entry with the given sequence number from the
out-of-order store. -/
def oooRemove (ooo : List (Nat × Nat)) (k : Nat) : List (Nat × Nat) :=
  match ooo with
  | [] => []
  | p :: rest => if p.1 = k then rest else p :: oooRemove rest k

/-- Modelled from the spec: after delivering the next in-order byte, pull
any segments from the out-of-order store that have become contiguous and
deliver them as well.  The fuel argument only bounds the recursion; each
successful pull shrinks the store, so `ooo.length` fuel is never
exhausted. -/
def tcpDrainAux : Nat → List (Nat × Nat) → Nat → List Nat → TcpRcv
  | 0, ooo, nxt, dlv => ⟨ooo, nxt, dlv⟩
  | fuel + 1, ooo, nxt, dlv =>
    match oooFind ooo nxt with
    | some b => tcpDrainAux fuel (oooRemove ooo nxt) (nxt + 1) (dlv ++ [b])
    | none => ⟨ooo, nxt, dlv⟩

/-- Modelled from the spec: drain the out-of-order store starting at the
next expected sequence number. -/
def tcpDrain (ooo : List (Nat × Nat)) (nxt : Nat) (dlv : List Nat) : TcpRcv :=
  tcpDrainAux ooo.length ooo nxt dlv

/-- Modelled from the spec: process one arriving segment.  A segment
below the next expected sequence number is a duplicate and is dropped;
the next expected segment is delivered (followed by a drain of the
out-of-order store); a later segment is stored for reordering unless an
identical copy is already stored. -/
def tcpRcvStep (s : TcpRcv) (seq payload : Nat) : TcpRcv :=
  if seq < s.nxt then s
  else if seq = s.nxt then tcpDrain s.ooo (s.nxt + 1) (s.delivered ++ [payload])
  else if (oooFind s.ooo seq).isSome then s
  else ⟨(seq, payload) :: s.ooo, s.nxt, s.delivered⟩

/-- Modelled from the spec: the fresh receiver of a new connection. -/
def tcpRcvInit : TcpRcv := ⟨[], 0, []⟩

/-- Modelled from the spec: run the receiver over a wire schedule `ws`:
for each entry `i` of `ws` (in order), the segment carrying byte `i` of
the sent `stream` arrives.  Schedules may repeat entries (duplication),
present them in any order (reordering), and entries may be missing
(loss of an individual transmission). -/
def tcpRcvRun (stream : List Nat) (ws : List Nat) : TcpRcv :=
  ws.foldl (fun s i => tcpRcvStep s i (stream.getD i 0)) tcpRcvInit

/-- Receiver invariant over the sent stream `L` after the wire entries
`processed` have been handled: the delivered bytes are exactly the prefix
of the stream up to the next expected sequence number; the out-of-order
store has distinct keys, holds only genuine later stream bytes; and every
processed entry is either already delivered or in the store. -/
def rcvInv (L : List Nat) (processed : List Nat) (s : TcpRcv) : Prop :=
  s.delivered = L.take s.nxt ∧
  (s.ooo.map Prod.fst).Nodup ∧
  (∀ p ∈ s.ooo, L[p.1]? = some p.2 ∧ s.nxt < p.1) ∧
  (∀ i ∈ processed, i < s.nxt ∨ i ∈ s.ooo.map Prod.fst)

/-! ## DNS resolver cache and pending-query table

Modelled from the spec: the repository's DNS resolver code is not under
`src/`; §4.7 and §3 of the design document specify the cache keyed by
{name, type} with expiry timestamps, and the pending-query table that
coalesces concurrent requesters. -/

/-- Modelled from the spec: a DNS cache / pending-query key: {name, record
type}. -/
structure DnsKey where
  name : String
  rtype : Nat
  deriving DecidableEq, Repr

/-- Modelled from the spec: a DNS cache entry: resolved data (abstracted
to a number) and the expiry timestamp. -/
structure DnsEntry where
  data : Nat
  expiry : Nat
  deriving DecidableEq, Repr

/-- Modelled from the spec: a pending query: its key and the list of
waiting requesters (abstracted to requester identifiers). -/
structure DnsPending where
  key : DnsKey
  waiters : List Nat
  deriving DecidableEq, Repr

/-- Modelled from the spec: resolver state: the bounded cache and the
pending-query table. -/
structure DnsState where
  cache : List (DnsKey × DnsEntry)
  pending : List DnsPending
  deriving DecidableEq, Repr

/-- Find a cache entry by key. -/
def cacheFind (c : List (DnsKey × DnsEntry)) (k : DnsKey) : Option DnsEntry :=
  match c with
  | [] => none
  | p :: rest => if p.1 = k then some p.2 else cacheFind rest k

/-- Evict every cache entry with the given key. -/
def cacheEvict (c : List (DnsKey × DnsEntry)) (k : DnsKey) : List (DnsKey × DnsEntry) :=
  c.filter (fun p => p.1 ≠ k)

/-- Find a pending query by key. -/
def pendingFind (ps : List DnsPending) (k : DnsKey) : Option DnsPending :=
  match ps with
  | [] => none
  | p :: rest => if p.key = k then some p else pendingFind rest k

/-- Add a requester to the waiter list of the pending query for `k`. -/
def addWaiter (ps : List DnsPending) (k : DnsKey) (req : Nat) : List DnsPending :=
  ps.map (fun p => if p.key = k then ⟨p.key, p.waiters ++ [req]⟩ else p)

/-- Modelled from the spec: the immediate outcome of a `resolve` call:
data served from the cache, or the caller left waiting on a pending query
(`networkQuery` records whether a fresh query was sent on the network by
this call). -/
inductive DnsOutcome where
  | fromCache (data : Nat)
  | queued (networkQuery : Bool)
  deriving DecidableEq, Repr

/-- Modelled from the spec: miss handling (§4.7): check the pending-query
table; if an identical {name, type} query is outstanding, add the caller
to its waiter list without any network traffic; otherwise create a
pending entry and issue a query to the configured resolver. -/
def dnsMiss (st : DnsState) (k : DnsKey) (req : Nat) : DnsState × DnsOutcome :=
  match pendingFind st.pending k with
  | some _ => ({ st with pending := addWaiter st.pending k req }, .queued false)
  | none => ({ st with pending := ⟨k, [req]⟩ :: st.pending }, .queued true)

/-- Modelled from the spec: `resolve(name, type)` at time `now` (§4.7):
check the cache first; a fresh entry is returned; an entry whose expiry
has passed is treated as absent — it is evicted and miss handling takes
over. -/
def dnsResolve (st : DnsState) (k : DnsKey) (req : Nat) (now : Nat) :
    DnsState × DnsOutcome :=
  match cacheFind st.cache k with
  | some e =>
    if now ≤ e.expiry then (st, .fromCache e.data)
    else dnsMiss { st with cache := cacheEvict st.cache k } k req
  | none => dnsMiss st k req

/-- Modelled from the spec: caching a reply received at time `T` with the
provided time-to-live stamps the entry's expiry `T + ttl`. -/
def dnsCacheInsert (st : DnsState) (k : DnsKey) (data ttl tNow : Nat) : DnsState :=
  { st with cache := (k, ⟨data, tNow + ttl⟩) :: cacheEvict st.cache k }

/-- The keys of the pending-query table. -/
def pendingKeys (ps : List DnsPending) : List DnsKey :=
  ps.map DnsPending.key

/-! ## Neighbor cache

Modelled from the spec: the repository's ARP/NDP code is not under
`src/`; §4.1 and §3 of the design document specify the neighbor cache:
{interface, protocol address} → link address with INCOMPLETE /
REACHABLE / STALE / PROBE states, a bounded per-entry queue of pending
outbound packets, coalescing of concurrent resolution attempts, and a
FIFO flush on the matching reply. -/

/-- Modelled from the spec: a neighbor-cache key: {interface, protocol
address}. -/
structure NbrKey where
  ifindex : Nat
  addr : Nat
  deriving DecidableEq, Repr

/-- Modelled from the spec: a neighbor entry's state, with the data each
state carries: INCOMPLETE holds the FIFO queue of packets awaiting
resolution (oldest first); the resolved states hold the link address. -/
inductive NbrStatus where
  | INCOMPLETE (queue : List Nat)
  | REACHABLE (link : Nat)
  | STALE (link : Nat)
  | PROBE (link : Nat)
  deriving DecidableEq, Repr

/-- Modelled from the spec: a neighbor-cache entry. -/
structure NbrEntry where
  key : NbrKey
  status : NbrStatus
  deriving DecidableEq, Repr

/-- Modelled from the spec: the neighbor cache: its entries and the fixed
per-entry pending-packet queue capacity. -/
structure NbrCache where
  entries : List NbrEntry
  qcap : Nat
  deriving DecidableEq, Repr

/-- Find a neighbor entry by key. -/
def nbrFind (es : List NbrEntry) (k : NbrKey) : Option NbrEntry :=
  match es with
  | [] => none
  | e :: rest => if e.key = k then some e else nbrFind rest k

/-- Replace the first entry with the given key. -/
def nbrReplace (es : List NbrEntry) (k : NbrKey) (e' : NbrEntry) : List NbrEntry :=
  match es with
  | [] => []
  | e :: rest => if e.key = k then e' :: rest else e :: nbrReplace rest k e'

/-- Modelled from the spec: the outcome of one `resolve` call: the packet
was transmitted with the resolved link address, or it was queued
(`requestSent` records whether this call emitted an ARP request / NDP
neighbor solicitation on the wire). -/
inductive NbrOutcome where
  | sent (link : Nat)
  | pending (requestSent : Bool)
  deriving DecidableEq, Repr

/-- Modelled from the spec: `resolve(interface, protocol_address)` with
the caller's packet (§4.1).  On a miss, creates an INCOMPLETE entry,
enqueues the packet and emits a resolution request.  A later attempt that
finds the INCOMPLETE entry is coalesced: the packet joins the queue
(dropping the oldest if the bounded queue is full) and no second request
is emitted.  A resolved entry answers with its link address. -/
def nbrResolve (c : NbrCache) (k : NbrKey) (pkt : Nat) : NbrCache × NbrOutcome :=
  match nbrFind c.entries k with
  | some e =>
    match e.status with
    | .INCOMPLETE q =>
      let q' := if q.length < c.qcap then q ++ [pkt] else q.tail ++ [pkt]
      ({ c with entries := nbrReplace c.entries k ⟨k, .INCOMPLETE q'⟩ }, .pending false)
    | .REACHABLE l => (c, .sent l)
    | .STALE l => (c, .sent l)
    | .PROBE l => (c, .sent l)
  | none =>
    ({ c with entries := ⟨k, .INCOMPLETE [pkt]⟩ :: c.entries }, .pending true)

/-- Modelled from the spec: handling of a matching resolution reply
(§4.1): the entry transitions to REACHABLE with the reply's link address
and the queued packets are flushed in FIFO order, every one transmitted
to that same link address.  The returned list is the flushed (packet,
link address) sequence in transmission order. -/
def nbrOnReply (c : NbrCache) (k : NbrKey) (link : Nat) :
    NbrCache × List (Nat × Nat) :=
  match nbrFind c.entries k with
  | some e =>
    match e.status with
    | .INCOMPLETE q =>
      ({ c with entries := nbrReplace c.entries k ⟨k, .REACHABLE link⟩ },
        q.map (fun p => (p, link)))
    | _ =>
      ({ c with entries := nbrReplace c.entries k ⟨k, .REACHABLE link⟩ }, [])
  | none => (c, [])

/-- Modelled from the spec: one resolution attempt inside a burst,
threading the cache and the count of resolution requests transmitted. -/
def nbrStep (k : NbrKey) (acc : NbrCache × Nat) (pkt : Nat) : NbrCache × Nat :=
  let r := nbrResolve acc.1 k pkt
  (r.1, acc.2 + (match r.2 with | .pending true => 1 | _ => 0))

/-- Modelled from the spec: a burst of resolution attempts for the same
key, serialized by the single network-processing context (§5); returns
the final cache and the number of resolution requests transmitted. -/
def nbrResolveRun (c : NbrCache) (k : NbrKey) (pkts : List Nat) : NbrCache × Nat :=
  pkts.foldl (nbrStep k) (c, 0)

/-! ## DHCP lease state machine

Modelled from the spec: the repository's DHCP client code is not under
`src/`; §4.6 and §8 of the design document specify the lease timers:
renewal at half the lease lifetime, rebind at about seven eighths, and
release with a return to INIT on expiry without renewal. -/

/-- Modelled from the spec: per-interface address-configuration states
(§3). -/
inductive DhcpState where
  | INIT
  | SELECTING
  | REQUESTING
  | BOUND
  | RENEWING
  | REBINDING
  deriving DecidableEq, Repr

/-- Modelled from the spec: the lease state machine's view of one
interface: the current state and whether the leased address is
installed. -/
structure DhcpLease where
  st : DhcpState
  addrInstalled : Bool
  deriving DecidableEq, Repr

/-- Modelled from the spec: one timer tick at time `now` (seconds since
the lease of duration `T` was granted).  In BOUND, the renewal timer
fires at `T / 2`, starting a renewal attempt (RENEWING); an unanswered
renewal falls to REBINDING when the rebind timer fires at `7 * T / 8`;
an unanswered rebind releases the address and returns to INIT at expiry
`T`.  A successful renew or rebind returns to BOUND. -/
def dhcpTick (T : Nat) (s : DhcpLease) (now : Nat) (renewOk rebindOk : Bool) :
    DhcpLease :=
  match s.st with
  | .BOUND => if T / 2 ≤ now then ⟨.RENEWING, s.addrInstalled⟩ else s
  | .RENEWING =>
    if renewOk then ⟨.BOUND, true⟩
    else if 7 * T / 8 ≤ now then ⟨.REBINDING, s.addrInstalled⟩ else s
  | .REBINDING =>
    if rebindOk then ⟨.BOUND, true⟩
    else if T ≤ now then ⟨.INIT, false⟩ else s
  | _ => s

/-- Modelled from the spec: the lease history when neither renewal nor
rebind ever succeeds: the interface is BOUND with the address installed
at the moment the lease is granted (second 0) and one tick runs every
second thereafter. -/
def dhcpRun (T : Nat) : Nat → DhcpLease
  | 0 => ⟨.BOUND, true⟩
  | t + 1 => dhcpTick T (dhcpRun T t) (t + 1) false false

/-! ## Theorems -/

/-- Claim C9: for every directory path, recursive flag, and callback,
`traverse_directory` never invokes the supplied `dir_traverse` callback
and leaves all program state unchanged apart from printing a fixed
diagnostic message. -/
theorem traverse_directory_stub {σ α : Type} (st : σ) (d : String)
    (rFlag : Bool) (f : α) :
    traverse_directory st d rFlag f = (st, [FsEffect.printed fsErrTraverse]) ∧
    FsEffect.invokedCallback ∉ (traverse_directory st d rFlag f).2 :=
  ⟨rfl, by simp [traverse_directory]⟩

/-- Claim C10: for every two calls to `traverse_directory` with any
(possibly different) argument tuples, the observable behavior is
identical — the same fixed diagnostic is printed, nothing else happens,
and each caller's state is left untouched: the arguments have no
influence on the function's output or effects. -/
theorem traverse_directory_noninterference {σ τ α β : Type} (st : σ)
    (st' : τ) (d1 d2 : String) (r1 r2 : Bool) (f1 : α) (f2 : β) :
    (traverse_directory st d1 r1 f1).2 = (traverse_directory st' d2 r2 f2).2 ∧
    (traverse_directory st d1 r1 f1).1 = st ∧
    (traverse_directory st' d2 r2 f2).1 = st' :=
  ⟨rfl, rfl, rfl⟩

/-- Claim C8: in every non-CROSS build, every call to `get_current_dir`
and every call to `gethomedir` returns the null pointer, so no caller
ever receives a valid directory string from either operation (the state
is also untouched). -/
theorem fs_dir_helpers_return_null {σ : Type} (st : σ) :
    (get_current_dir st).2.2 = none ∧ (gethomedir st).2.2 = none ∧
    (get_current_dir st).1 = st ∧ (gethomedir st).1 = st :=
  ⟨rfl, rfl, rfl, rfl⟩

/-- No route is strictly preferred to itself. -/
theorem routeBetter_irrefl (r : Route) : routeBetter r r = false := by
  simp [routeBetter]

/-- Strict route preference is transitive. -/
theorem routeBetter_trans {a b c : Route} (h1 : routeBetter a b = true)
    (h2 : routeBetter b c = true) : routeBetter a c = true := by
  simp only [routeBetter, decide_eq_true_eq] at *
  omega

/-- Non-preference is transitive (route preference is a strict weak
order). -/
theorem routeBetter_not_trans {a b c : Route} (h1 : routeBetter a b = false)
    (h2 : routeBetter b c = false) : routeBetter a c = false := by
  simp only [routeBetter, decide_eq_false_iff_not] at *
  omega

/-- Invariant of the lookup scan: the selected route comes from the
initial accumulator or is a matching table entry, and no matching table
entry (nor the initial accumulator) is strictly preferred to it. -/
theorem lookupFold_spec (addr : Nat) :
    ∀ (table : List Route) (best : Option Route) (r : Route),
      table.foldl (lookupStep addr) best = some r →
      ((∃ b, best = some b ∧ r = b) ∨ (r ∈ table ∧ routeMatches r addr = true)) ∧
      (∀ r' ∈ table, routeMatches r' addr = true → routeBetter r' r = false) ∧
      (∀ b, best = some b → routeBetter b r = false) := by
  intro table
  induction table with
  | nil =>
    intro best r h
    simp only [List.foldl_nil] at h
    refine ⟨Or.inl ⟨r, h, rfl⟩, by simp, fun b hb => ?_⟩
    rw [hb] at h
    cases h
    exact routeBetter_irrefl r
  | cons r0 rest ih =>
    intro best r h
    simp only [List.foldl_cons] at h
    obtain ⟨h1, h2, h3⟩ := ih (lookupStep addr best r0) r h
    by_cases hm : routeMatches r0 addr = true
    · have hb0 : ∀ b, best = some b → routeBetter b r = false := by
        intro b hb
        rcases hbb : routeBetter r0 b with _ | _
        · have : lookupStep addr best r0 = some b := by
            simp [lookupStep, hm, hb, hbb]
          exact h3 b this
        · have : lookupStep addr best r0 = some r0 := by
            simp [lookupStep, hm, hb, hbb]
          have hr0 := h3 r0 this
          rcases hbr : routeBetter b r with _ | _
          · rfl
          · exact absurd (routeBetter_trans hbb hbr) (by simp [hr0])
      have hr0r : routeBetter r0 r = false := by
        cases hbest : best with
        | none =>
          have : lookupStep addr best r0 = some r0 := by
            simp [lookupStep, hm, hbest]
          exact h3 r0 this
        | some b =>
          rcases hbb : routeBetter r0 b with _ | _
          · have : lookupStep addr best r0 = some b := by
              simp [lookupStep, hm, hbest, hbb]
            exact routeBetter_not_trans hbb (h3 b this)
          · have : lookupStep addr best r0 = some r0 := by
              simp [lookupStep, hm, hbest, hbb]
            exact h3 r0 this
      refine ⟨?_, ?_, hb0⟩
      · rcases h1 with ⟨b, hb, hrb⟩ | ⟨hmem, hma⟩
        · cases hbest : best with
          | none =>
            rw [hbest] at hb
            simp [lookupStep, hm] at hb
            exact Or.inr ⟨by simp [hrb, ← hb], by rw [hrb, ← hb]; exact hm⟩
          | some b0 =>
            rw [hbest] at hb
            rcases hbb : routeBetter r0 b0 with _ | _
            · simp [lookupStep, hm, hbb] at hb
              exact Or.inl ⟨b0, rfl, by rw [hrb, hb]⟩
            · simp [lookupStep, hm, hbb] at hb
              exact Or.inr ⟨by simp [hrb, ← hb], by rw [hrb, ← hb]; exact hm⟩
        · exact Or.inr ⟨List.mem_cons_of_mem r0 hmem, hma⟩
      · intro r' hr' hma'
        rcases List.mem_cons.mp hr' with he | hm'
        · rw [he]; exact hr0r
        · exact h2 r' hm' hma'
    · have hstep : lookupStep addr best r0 = best := by
        simp [lookupStep, hm]
      rw [hstep] at h1 h3
      refine ⟨?_, ?_, h3⟩
      · rcases h1 with hl | ⟨hmem, hma⟩
        · exact Or.inl hl
        · exact Or.inr ⟨List.mem_cons_of_mem r0 hmem, hma⟩
      · intro r' hr' hma'
        rcases List.mem_cons.mp hr' with he | hm'
        · rw [he] at hma'; exact absurd hma' hm
        · exact h2 r' hm' hma'

/-- Claim C3: for every routing table and destination address, lookup
selects a route that matches the destination, belongs to the table, and
over which no other matching route is preferred — that is, none has a
longer matching prefix, nor an equal prefix length with a lower metric,
nor equal prefix length and metric with a lower interface index; in
particular, with routes for 10.0.0.0/8 and 10.1.0.0/16 installed, lookup
of 10.1.2.3 selects the /16 route. -/
theorem routing_longest_prefix_match :
    (∀ (table : List Route) (addr : Nat) (r : Route),
        lookup table addr = some r →
        routeMatches r addr = true ∧ r ∈ table ∧
          ∀ r' ∈ table, routeMatches r' addr = true → routeBetter r' r = false) ∧
    lookup [⟨ipv4 10 0 0 0, 8, 1, 0⟩, ⟨ipv4 10 1 0 0, 16, 1, 0⟩] (ipv4 10 1 2 3)
      = some ⟨ipv4 10 1 0 0, 16, 1, 0⟩ := by
  constructor
  · intro table addr r h
    obtain ⟨h1, h2, _⟩ := lookupFold_spec addr table none r h
    rcases h1 with ⟨b, hb, _⟩ | ⟨hmem, hma⟩
    · cases hb
    · exact ⟨hma, hmem, h2⟩
  · decide

/-- Witness for `routing_longest_prefix_match` at the two-route table of
the design document's example. -/
theorem routing_longest_prefix_match_witness :
    routeMatches ⟨ipv4 10 1 0 0, 16, 1, 0⟩ (ipv4 10 1 2 3) = true ∧
    (⟨ipv4 10 1 0 0, 16, 1, 0⟩ : Route) ∈
      [⟨ipv4 10 0 0 0, 8, 1, 0⟩, ⟨ipv4 10 1 0 0, 16, 1, 0⟩] :=
  ⟨(routing_longest_prefix_match.1
      [⟨ipv4 10 0 0 0, 8, 1, 0⟩, ⟨ipv4 10 1 0 0, 16, 1, 0⟩]
      (ipv4 10 1 2 3) ⟨ipv4 10 1 0 0, 16, 1, 0⟩ (by decide)).1,
   (routing_longest_prefix_match.1
      [⟨ipv4 10 0 0 0, 8, 1, 0⟩, ⟨ipv4 10 1 0 0, 16, 1, 0⟩]
      (ipv4 10 1 2 3) ⟨ipv4 10 1 0 0, 16, 1, 0⟩ (by decide)).2.1⟩

/-- Claim C2: for every TCP connection in any state other than LISTEN,
receiving a segment with the RST flag immediately moves the connection to
CLOSED and reports a reset error to the owning socket; a connection in
LISTEN ignores the RST. -/
theorem tcp_rst_forces_closed (s : TcpState) :
    (s ≠ .LISTEN → tcpStep s .rcvRst = (.CLOSED, some .reset)) ∧
    tcpStep .LISTEN .rcvRst = (.LISTEN, none) := by
  refine ⟨fun h => ?_, by rfl⟩
  cases s <;> first | rfl | exact absurd rfl h

/-- Witness for `tcp_rst_forces_closed` at the ESTABLISHED state. -/
theorem tcp_rst_forces_closed_witness :
    tcpStep .ESTABLISHED .rcvRst = (.CLOSED, some .reset) :=
  (tcp_rst_forces_closed .ESTABLISHED).1 (by decide)

/-- A successful store lookup designates a stored pair. -/
theorem oooFind_some_mem {ooo : List (Nat × Nat)} {k b : Nat}
    (h : oooFind ooo k = some b) : (k, b) ∈ ooo := by
  induction ooo with
  | nil => cases h
  | cons p rest ih =>
    by_cases hp : p.1 = k
    · simp only [oooFind, if_pos hp] at h
      cases h
      rw [← hp]
      simp
    · simp only [oooFind, if_neg hp] at h
      exact List.mem_cons_of_mem p (ih h)

/-- A store lookup succeeds exactly when the key is among the stored
sequence numbers. -/
theorem oooFind_isSome_iff {ooo : List (Nat × Nat)} {k : Nat} :
    (oooFind ooo k).isSome ↔ k ∈ ooo.map Prod.fst := by
  induction ooo with
  | nil => simp [oooFind]
  | cons p rest ih =>
    by_cases hp : p.1 = k
    · simp [oooFind, hp]
    · simp only [oooFind, if_neg hp, List.map_cons, List.mem_cons]
      rw [ih]
      constructor
      · exact Or.inr
      · rintro (he | hm)
        · exact absurd he.symm hp
        · exact hm

/-- Removal yields a sublist of the store. -/
theorem oooRemove_sublist (ooo : List (Nat × Nat)) (k : Nat) :
    List.Sublist (oooRemove ooo k) ooo := by
  induction ooo with
  | nil => simp [oooRemove]
  | cons p rest ih =>
    by_cases hp : p.1 = k
    · simp only [oooRemove, if_pos hp]
      exact List.sublist_cons_self p rest
    · simp only [oooRemove, if_neg hp]
      exact ih.cons₂ p

/-- Removing a found key shrinks the store by exactly one entry. -/
theorem oooRemove_length {ooo : List (Nat × Nat)} {k b : Nat}
    (h : oooFind ooo k = some b) :
    (oooRemove ooo k).length + 1 = ooo.length := by
  induction ooo with
  | nil => cases h
  | cons p rest ih =>
    by_cases hp : p.1 = k
    · simp [oooRemove, hp]
    · simp only [oooFind, if_neg hp] at h
      simp only [oooRemove, if_neg hp, List.length_cons]
      rw [← ih h]

/-- Entries with a different key survive removal. -/
theorem mem_oooRemove_of_mem {ooo : List (Nat × Nat)} {k : Nat} {p : Nat × Nat}
    (hp : p ∈ ooo) (hne : p.1 ≠ k) : p ∈ oooRemove ooo k := by
  induction ooo with
  | nil => cases hp
  | cons q rest ih =>
    rcases List.mem_cons.mp hp with he | hm
    · have hq : q.1 ≠ k := by rw [← he]; exact hne
      simp only [oooRemove, if_neg hq]
      exact he ▸ List.mem_cons_self q _
    · by_cases hq : q.1 = k
      · simp only [oooRemove, if_pos hq]
        exact hm
      · simp only [oooRemove, if_neg hq]
        exact List.mem_cons_of_mem q (ih hm)

/-- With distinct keys, no entry with the removed key survives removal. -/
theorem oooRemove_key_ne {ooo : List (Nat × Nat)} {k : Nat} {p : Nat × Nat}
    (hnd : (ooo.map Prod.fst).Nodup) (hp : p ∈ oooRemove ooo k) : p.1 ≠ k := by
  induction ooo with
  | nil => cases hp
  | cons q rest ih =>
    simp only [List.map_cons, List.nodup_cons] at hnd
    by_cases hq : q.1 = k
    · simp only [oooRemove, if_pos hq] at hp
      intro he
      exact hnd.1 (hq ▸ he ▸ List.mem_map_of_mem Prod.fst hp)
    · simp only [oooRemove, if_neg hq] at hp
      rcases List.mem_cons.mp hp with he | hm
      · rw [he]; exact hq
      · exact ih hnd.2 hm

/-- Fuelled drain invariant: starting from a store of genuine later
stream bytes with distinct keys and a delivered prefix, draining extends
the delivered prefix, keeps the store genuine and strictly beyond the new
next expected number, and loses no key except by delivering it. -/
theorem tcpDrainAux_spec (L : List Nat) :
    ∀ (fuel : Nat) (ooo : List (Nat × Nat)) (nxt : Nat) (dlv : List Nat),
      ooo.length ≤ fuel →
      (ooo.map Prod.fst).Nodup →
      (∀ p ∈ ooo, L[p.1]? = some p.2 ∧ nxt ≤ p.1) →
      dlv = L.take nxt →
      (tcpDrainAux fuel ooo nxt dlv).delivered
          = L.take (tcpDrainAux fuel ooo nxt dlv).nxt ∧
      nxt ≤ (tcpDrainAux fuel ooo nxt dlv).nxt ∧
      ((tcpDrainAux fuel ooo nxt dlv).ooo.map Prod.fst).Nodup ∧
      (∀ p ∈ (tcpDrainAux fuel ooo nxt dlv).ooo,
        L[p.1]? = some p.2 ∧ (tcpDrainAux fuel ooo nxt dlv).nxt < p.1) ∧
      (∀ k ∈ ooo.map Prod.fst,
        k < (tcpDrainAux fuel ooo nxt dlv).nxt
          ∨ k ∈ (tcpDrainAux fuel ooo nxt dlv).ooo.map Prod.fst) := by
  intro fuel
  induction fuel with
  | zero =>
    intro ooo nxt dlv hlen hnd hent hdlv
    have : ooo = [] := List.eq_nil_of_length_eq_zero (Nat.le_zero.mp hlen)
    subst this
    simp only [tcpDrainAux]
    exact ⟨hdlv, Nat.le_refl _, by simp, by simp, by simp⟩
  | succ fuel ih =>
    intro ooo nxt dlv hlen hnd hent hdlv
    cases hfind : oooFind ooo nxt with
    | none =>
      have hres : tcpDrainAux (fuel + 1) ooo nxt dlv = ⟨ooo, nxt, dlv⟩ := by
        simp [tcpDrainAux, hfind]
      rw [hres]
      refine ⟨hdlv, Nat.le_refl _, hnd, fun p hp => ?_, fun k hk => Or.inr hk⟩
      obtain ⟨h1, h2⟩ := hent p hp
      have hne : nxt ≠ p.1 := by
        intro he
        have hsome : (oooFind ooo nxt).isSome := by
          refine oooFind_isSome_iff.mpr ?_
          rw [he]
          exact List.mem_map_of_mem Prod.fst hp
        rw [hfind] at hsome
        cases hsome
      exact ⟨h1, Nat.lt_of_le_of_ne h2 hne⟩
    | some b =>
      have hres : tcpDrainAux (fuel + 1) ooo nxt dlv
          = tcpDrainAux fuel (oooRemove ooo nxt) (nxt + 1) (dlv ++ [b]) := by
        simp [tcpDrainAux, hfind]
      have hmem : (nxt, b) ∈ ooo := oooFind_some_mem hfind
      have hgb : L[nxt]? = some b := (hent (nxt, b) hmem).1
      have hlen' : (oooRemove ooo nxt).length ≤ fuel := by
        have := oooRemove_length hfind
        omega
      have hnd' : ((oooRemove ooo nxt).map Prod.fst).Nodup :=
        hnd.sublist ((oooRemove_sublist ooo nxt).map Prod.fst)
      have hent' : ∀ p ∈ oooRemove ooo nxt, L[p.1]? = some p.2 ∧ nxt + 1 ≤ p.1 := by
        intro p hp
        have hpo : p ∈ ooo := (oooRemove_sublist ooo nxt).subset hp
        obtain ⟨h1, h2⟩ := hent p hpo
        have hne : p.1 ≠ nxt := oooRemove_key_ne hnd hp
        exact ⟨h1, by omega⟩
      have hdlv' : dlv ++ [b] = L.take (nxt + 1) := by
        rw [List.take_succ, hgb, hdlv]
        rfl
      obtain ⟨c1, c2, c3, c4, c5⟩ :=
        ih (oooRemove ooo nxt) (nxt + 1) (dlv ++ [b]) hlen' hnd' hent' hdlv'
      rw [hres]
      refine ⟨c1, by omega, c3, c4, fun k hk => ?_⟩
      by_cases hke : k = nxt
      · left; omega
      · obtain ⟨p, hp, hpk⟩ := List.mem_map.mp hk
        have hpr : p ∈ oooRemove ooo nxt :=
          mem_oooRemove_of_mem hp (by rw [hpk]; exact hke)
        exact c5 k (hpk ▸ List.mem_map_of_mem Prod.fst hpr)

/-- The drain invariant, restated for `tcpDrain` (which supplies the
store length as fuel). -/
theorem tcpDrain_spec (L : List Nat) (ooo : List (Nat × Nat)) (nxt : Nat)
    (dlv : List Nat) (hnd : (ooo.map Prod.fst).Nodup)
    (hent : ∀ p ∈ ooo, L[p.1]? = some p.2 ∧ nxt ≤ p.1)
    (hdlv : dlv = L.take nxt) :
    (tcpDrain ooo nxt dlv).delivered = L.take (tcpDrain ooo nxt dlv).nxt ∧
    nxt ≤ (tcpDrain ooo nxt dlv).nxt ∧
    ((tcpDrain ooo nxt dlv).ooo.map Prod.fst).Nodup ∧
    (∀ p ∈ (tcpDrain ooo nxt dlv).ooo,
      L[p.1]? = some p.2 ∧ (tcpDrain ooo nxt dlv).nxt < p.1) ∧
    (∀ k ∈ ooo.map Prod.fst,
      k < (tcpDrain ooo nxt dlv).nxt
        ∨ k ∈ (tcpDrain ooo nxt dlv).ooo.map Prod.fst) :=
  tcpDrainAux_spec L ooo.length ooo nxt dlv (Nat.le_refl _) hnd hent hdlv

/-- One arriving segment preserves the receiver invariant. -/
theorem tcpRcvStep_inv (L : List Nat) (processed : List Nat) (s : TcpRcv)
    (seq : Nat) (hseq : seq < L.length) (hinv : rcvInv L processed s) :
    rcvInv L (processed ++ [seq]) (tcpRcvStep s seq (L.getD seq 0)) := by
  obtain ⟨hdlv, hnd, hent, hcov⟩ := hinv
  have hget : L[seq]? = some (L.getD seq 0) := by
    rw [List.getElem?_eq_getElem hseq]
    rw [List.getD_eq_getElem L 0 hseq]
  by_cases h1 : seq < s.nxt
  · have hres : tcpRcvStep s seq (L.getD seq 0) = s := by
      simp [tcpRcvStep, h1]
    rw [hres]
    refine ⟨hdlv, hnd, hent, fun i hi => ?_⟩
    rcases List.mem_append.mp hi with hio | his
    · exact hcov i hio
    · left
      rw [List.mem_singleton.mp his]
      exact h1
  · by_cases h2 : seq = s.nxt
    · have hres : tcpRcvStep s seq (L.getD seq 0)
          = tcpDrain s.ooo (s.nxt + 1) (s.delivered ++ [L.getD seq 0]) := by
        simp [tcpRcvStep, h1, h2]
      have hent' : ∀ p ∈ s.ooo, L[p.1]? = some p.2 ∧ s.nxt + 1 ≤ p.1 := by
        intro p hp
        obtain ⟨ha, hb⟩ := hent p hp
        exact ⟨ha, by omega⟩
      have hdlv' : s.delivered ++ [L.getD seq 0] = L.take (s.nxt + 1) := by
        rw [List.take_succ, ← h2, hget, hdlv, h2]
        rfl
      obtain ⟨c1, c2, c3, c4, c5⟩ := tcpDrain_spec L s.ooo
        (s.nxt + 1) (s.delivered ++ [L.getD seq 0]) hnd hent' hdlv'
      rw [hres]
      refine ⟨c1, c3, c4, fun i hi => ?_⟩
      rcases List.mem_append.mp hi with hio | his
      · rcases hcov i hio with hc | hc
        · left
          omega
        · exact c5 i hc
      · left
        have hie : i = s.nxt := by rw [List.mem_singleton.mp his]; exact h2
        omega
    · by_cases h3 : (oooFind s.ooo seq).isSome
      · have hres : tcpRcvStep s seq (L.getD seq 0) = s := by
          simp [tcpRcvStep, h1, h2, h3]
        rw [hres]
        refine ⟨hdlv, hnd, hent, fun i hi => ?_⟩
        rcases List.mem_append.mp hi with hio | his
        · exact hcov i hio
        · right
          rw [List.mem_singleton.mp his]
          exact oooFind_isSome_iff.mp h3
      · have hres : tcpRcvStep s seq (L.getD seq 0)
            = ⟨(seq, L.getD seq 0) :: s.ooo, s.nxt, s.delivered⟩ := by
          simp [tcpRcvStep, h1, h2, h3]
        rw [hres]
        have hnmem : seq ∉ s.ooo.map Prod.fst := fun hm =>
          h3 (oooFind_isSome_iff.mpr hm)
        refine ⟨hdlv, ?_, ?_, ?_⟩
        · simp only [List.map_cons]
          exact List.nodup_cons.mpr ⟨hnmem, hnd⟩
        · intro p hp
          rcases List.mem_cons.mp hp with he | hm
          · rw [he]
            refine ⟨hget, ?_⟩
            show s.nxt < seq
            omega
          · exact hent p hm
        · intro i hi
          rcases List.mem_append.mp hi with hio | his
          · rcases hcov i hio with hc | hc
            · exact Or.inl hc
            · right
              simp only [List.map_cons, List.mem_cons]
              exact Or.inr hc
          · right
            simp only [List.map_cons, List.mem_cons]
            exact Or.inl (List.mem_singleton.mp his)

/-- A whole wire schedule preserves the receiver invariant. -/
theorem tcpRcvRun_inv (L : List Nat) :
    ∀ (ws : List Nat), (∀ i ∈ ws, i < L.length) →
      ∀ (processed : List Nat) (s : TcpRcv), rcvInv L processed s →
      rcvInv L (processed ++ ws)
        (ws.foldl (fun s i => tcpRcvStep s i (L.getD i 0)) s) := by
  intro ws
  induction ws with
  | nil =>
    intro _ processed s hinv
    simpa using hinv
  | cons i rest ih =>
    intro hws processed s hinv
    have hstep := tcpRcvStep_inv L processed s i (hws i (List.mem_cons_self i rest)) hinv
    have := ih (fun j hj => hws j (List.mem_cons_of_mem i hj))
      (processed ++ [i]) (tcpRcvStep s i (L.getD i 0)) hstep
    simpa [List.append_assoc] using this

/-- Claim C1: for every valid outgoing TCP byte stream, the sequence of
bytes delivered to the receiving application equals the sequence sent, in
order, with no gaps or duplicates, for every pattern of packet loss,
reordering, or duplication on the wire: under any wire schedule the
delivered bytes are exactly the in-order prefix of the sent stream up to
the next expected sequence number, and once retransmission has put every
segment on the wire at least once the delivered sequence equals the sent
stream. -/
theorem tcp_ordered_delivery (stream ws : List Nat)
    (hvalid : ∀ i ∈ ws, i < stream.length) :
    (tcpRcvRun stream ws).delivered = stream.take (tcpRcvRun stream ws).nxt ∧
    ((∀ i, i < stream.length → i ∈ ws) →
      (tcpRcvRun stream ws).delivered = stream) := by
  have hinit : rcvInv stream [] tcpRcvInit :=
    ⟨rfl, by simp [tcpRcvInit], by simp [tcpRcvInit], by simp⟩
  have h : rcvInv stream ([] ++ ws) (tcpRcvRun stream ws) :=
    tcpRcvRun_inv stream ws hvalid [] tcpRcvInit hinit
  rw [List.nil_append] at h
  obtain ⟨hdlv, hnd, hent, hcov⟩ := h
  refine ⟨hdlv, fun hcompl => ?_⟩
  have hlen : stream.length ≤ (tcpRcvRun stream ws).nxt := by
    by_contra hlt
    push_neg at hlt
    have hmem := hcompl _ hlt
    rcases hcov _ hmem with hc | hc
    · omega
    · obtain ⟨p, hp, hpk⟩ := List.mem_map.mp hc
      have := (hent p hp).2
      omega
  rw [hdlv, List.take_of_length_le hlen]

/-- Witness for `tcp_ordered_delivery`: the stream [10, 20, 30] sent over
a wire schedule with reordering (segment 1 before 0), duplication
(segment 1 three times) and a lost first transmission that is
retransmitted is delivered exactly once, in order. -/
theorem tcp_ordered_delivery_witness :
    (tcpRcvRun [10, 20, 30] [1, 1, 2, 0, 1]).delivered = [10, 20, 30] :=
  (tcp_ordered_delivery [10, 20, 30] [1, 1, 2, 0, 1] (by decide)).2 (by decide)

/-- Evicting a key removes it from the cache. -/
theorem cacheFind_evict (c : List (DnsKey × DnsEntry)) (k : DnsKey) :
    cacheFind (cacheEvict c k) k = none := by
  induction c with
  | nil => rfl
  | cons p rest ih =>
    by_cases h : p.1 = k
    · simpa [cacheEvict, h] using ih
    · simpa [cacheEvict, cacheFind, h] using ih

/-- Miss handling never touches the cache. -/
theorem dnsMiss_cache (st : DnsState) (k : DnsKey) (req : Nat) :
    (dnsMiss st k req).1.cache = st.cache := by
  unfold dnsMiss
  cases pendingFind st.pending k <;> rfl

/-- Miss handling never answers from the cache. -/
theorem dnsMiss_not_fromCache (st : DnsState) (k : DnsKey) (req : Nat) (d : Nat) :
    (dnsMiss st k req).2 ≠ .fromCache d := by
  unfold dnsMiss
  cases pendingFind st.pending k <;> simp

/-- Adding a waiter extends the waiter list of the pending query found
for the key. -/
theorem pendingFind_addWaiter (ps : List DnsPending) (k : DnsKey) (req : Nat)
    (p : DnsPending) (h : pendingFind ps k = some p) :
    pendingFind (addWaiter ps k req) k = some ⟨p.key, p.waiters ++ [req]⟩ := by
  induction ps with
  | nil => cases h
  | cons q rest ih =>
    by_cases hq : q.key = k
    · simp only [pendingFind, if_pos hq] at h
      cases h
      simp [addWaiter, pendingFind, hq]
    · simp only [pendingFind, if_neg hq] at h
      simpa [addWaiter, pendingFind, hq] using ih h

/-- Adding a waiter leaves the set of pending keys unchanged. -/
theorem pendingKeys_addWaiter (ps : List DnsPending) (k : DnsKey) (req : Nat) :
    pendingKeys (addWaiter ps k req) = pendingKeys ps := by
  induction ps with
  | nil => rfl
  | cons q rest ih =>
    by_cases hq : q.key = k <;>
      simp_all [addWaiter, pendingKeys]

/-- A key with no pending query is not among the pending keys. -/
theorem pendingFind_none_not_mem (ps : List DnsPending) (k : DnsKey)
    (h : pendingFind ps k = none) : k ∉ pendingKeys ps := by
  induction ps with
  | nil => simp [pendingKeys]
  | cons q rest ih =>
    by_cases hq : q.key = k
    · simp [pendingFind, hq] at h
    · simp only [pendingFind, if_neg hq] at h
      simp only [pendingKeys, List.map_cons, List.mem_cons, not_or]
      exact ⟨fun he => hq he.symm, ih h⟩

/-- Claim C4: for every DNS cache entry whose expiry timestamp has
passed, `resolve` never returns that entry: nothing is answered from the
cache, the entry is evicted, and — when no identical query is already in
flight — a fresh network query is issued.  In particular a record cached
at time `T` with TTL 60 has expiry `T + 60` and so is not served from the
cache at any time at or after `T + 61`. -/
theorem dns_expired_entry_never_served (st : DnsState) (k : DnsKey)
    (req now : Nat) (e : DnsEntry) (hfind : cacheFind st.cache k = some e)
    (hexp : e.expiry < now) :
    (∀ d, (dnsResolve st k req now).2 ≠ .fromCache d) ∧
    cacheFind (dnsResolve st k req now).1.cache k = none ∧
    (pendingFind st.pending k = none →
      (dnsResolve st k req now).2 = .queued true) := by
  have hres : dnsResolve st k req now
      = dnsMiss { st with cache := cacheEvict st.cache k } k req := by
    unfold dnsResolve
    rw [hfind]
    simp [Nat.not_le.mpr hexp]
  refine ⟨fun d => ?_, ?_, fun hp => ?_⟩
  · rw [hres]; exact dnsMiss_not_fromCache _ _ _ _
  · rw [hres, dnsMiss_cache]
    exact cacheFind_evict st.cache k
  · rw [hres]
    unfold dnsMiss
    simp [hp]

/-- Witness for `dns_expired_entry_never_served`: a record cached at time
0 with TTL 60 (expiry 60) is not served at time 61; it is evicted and a
fresh network query goes out. -/
theorem dns_expired_entry_never_served_witness :
    cacheFind (dnsResolve ⟨[(⟨"a", 1⟩, ⟨42, 60⟩)], []⟩ ⟨"a", 1⟩ 7 61).1.cache
      ⟨"a", 1⟩ = none ∧
    (dnsResolve ⟨[(⟨"a", 1⟩, ⟨42, 60⟩)], []⟩ ⟨"a", 1⟩ 7 61).2 = .queued true :=
  ⟨(dns_expired_entry_never_served ⟨[(⟨"a", 1⟩, ⟨42, 60⟩)], []⟩ ⟨"a", 1⟩ 7 61
      ⟨42, 60⟩ (by decide) (by decide)).2.1,
   (dns_expired_entry_never_served ⟨[(⟨"a", 1⟩, ⟨42, 60⟩)], []⟩ ⟨"a", 1⟩ 7 61
      ⟨42, 60⟩ (by decide) (by decide)).2.2 (by decide)⟩

/-- Claim C5: for every {name, type} key, at most one DNS query is in
flight at a time: `resolve` preserves distinctness of the pending keys,
and a call that misses the cache (no entry, or only an expired one) while
an identical query is outstanding is appended to that query's waiter list
and does not issue a second network query. -/
theorem dns_query_coalescing (st : DnsState) (k : DnsKey) (req now : Nat)
    (hnd : (pendingKeys st.pending).Nodup) :
    (pendingKeys (dnsResolve st k req now).1.pending).Nodup ∧
    (∀ p, pendingFind st.pending k = some p →
      (∀ e, cacheFind st.cache k = some e → e.expiry < now) →
      (dnsResolve st k req now).2 = .queued false ∧
      pendingFind (dnsResolve st k req now).1.pending k
        = some ⟨p.key, p.waiters ++ [req]⟩) := by
  have hmiss : ∀ st' : DnsState, st'.pending = st.pending →
      (pendingKeys (dnsMiss st' k req).1.pending).Nodup := by
    intro st' hpe
    unfold dnsMiss
    cases hpf : pendingFind st'.pending k with
    | some p => simp only; rw [pendingKeys_addWaiter, hpe]; exact hnd
    | none =>
      simp only [pendingKeys, List.map_cons]
      rw [show List.map DnsPending.key st'.pending = pendingKeys st'.pending
        from rfl, hpe]
      exact List.nodup_cons.mpr ⟨pendingFind_none_not_mem _ _ (hpe ▸ hpf), hnd⟩
  constructor
  · unfold dnsResolve
    cases hcf : cacheFind st.cache k with
    | some e =>
      by_cases hle : now ≤ e.expiry
      · simp only [if_pos hle]; exact hnd
      · simp only [if_neg hle]
        exact hmiss _ rfl
    | none => exact hmiss _ rfl
  · intro p hp hcache
    have hres : (dnsResolve st k req now).1.pending = addWaiter st.pending k req ∧
        (dnsResolve st k req now).2 = .queued false := by
      unfold dnsResolve
      cases hcf : cacheFind st.cache k with
      | some e =>
        have := hcache e hcf
        simp only [if_neg (Nat.not_le.mpr this)]
        unfold dnsMiss
        simp [hp]
      | none =>
        unfold dnsMiss
        simp [hp]
    rw [hres.1, hres.2]
    exact ⟨rfl, pendingFind_addWaiter _ _ _ _ hp⟩

/-- Witness for `dns_query_coalescing`: a second requester for a name
with a query already outstanding is coalesced onto it and no network
query is sent. -/
theorem dns_query_coalescing_witness :
    (dnsResolve ⟨[], [⟨⟨"b", 28⟩, [5]⟩]⟩ ⟨"b", 28⟩ 9 100).2 = .queued false ∧
    pendingFind (dnsResolve ⟨[], [⟨⟨"b", 28⟩, [5]⟩]⟩ ⟨"b", 28⟩ 9 100).1.pending
      ⟨"b", 28⟩ = some ⟨⟨"b", 28⟩, [5, 9]⟩ := by
  have h := (dns_query_coalescing ⟨[], [⟨⟨"b", 28⟩, [5]⟩]⟩ ⟨"b", 28⟩ 9 100
      (by decide)).2 ⟨⟨"b", 28⟩, [5]⟩ (by decide) (fun e he => by simp [cacheFind] at he)
  exact ⟨h.1, h.2⟩

/-- Replacing the entry found for a key makes the replacement the entry
found for that key. -/
theorem nbrFind_replace (es : List NbrEntry) (k : NbrKey) (e' : NbrEntry)
    (hfound : (nbrFind es k).isSome) (hkey : e'.key = k) :
    nbrFind (nbrReplace es k e') k = some e' := by
  induction es with
  | nil => simp [nbrFind] at hfound
  | cons e rest ih =>
    by_cases he : e.key = k
    · simp [nbrReplace, nbrFind, he, hkey]
    · simp only [nbrFind, if_neg he] at hfound
      simpa [nbrReplace, nbrFind, he] using ih hfound

/-- Invariant of a resolution burst: once the key's entry is INCOMPLETE
with queue `q` and the remaining packets fit the queue capacity, the rest
of the burst transmits no further resolution request and only appends the
packets to the queue in arrival order. -/
theorem nbrRun_aux (k : NbrKey) (rest : List Nat) :
    ∀ (c : NbrCache) (q : List Nat) (n : Nat),
      nbrFind c.entries k = some ⟨k, .INCOMPLETE q⟩ →
      q.length + rest.length ≤ c.qcap →
      (rest.foldl (nbrStep k) (c, n)).2 = n ∧
      (rest.foldl (nbrStep k) (c, n)).1.qcap = c.qcap ∧
      nbrFind (rest.foldl (nbrStep k) (c, n)).1.entries k
        = some ⟨k, .INCOMPLETE (q ++ rest)⟩ := by
  induction rest with
  | nil =>
    intro c q n hf _
    simpa using hf
  | cons pkt rest' ih =>
    intro c q n hf hcap
    have hlt : q.length < c.qcap := by
      simp only [List.length_cons] at hcap
      omega
    have hstep : nbrStep k (c, n) pkt
        = ({ c with
              entries := nbrReplace c.entries k ⟨k, .INCOMPLETE (q ++ [pkt])⟩ },
            n) := by
      simp [nbrStep, nbrResolve, hf, hlt]
    have hf' : nbrFind (nbrReplace c.entries k ⟨k, .INCOMPLETE (q ++ [pkt])⟩) k
        = some ⟨k, .INCOMPLETE (q ++ [pkt])⟩ :=
      nbrFind_replace _ _ _ (by simp [hf]) rfl
    have hcap' : (q ++ [pkt]).length + rest'.length ≤ c.qcap := by
      simp only [List.length_append, List.length_cons, List.length_nil] at *
      omega
    have := ih
      { c with entries := nbrReplace c.entries k ⟨k, .INCOMPLETE (q ++ [pkt])⟩ }
      (q ++ [pkt]) n hf' hcap'
    simp only [List.foldl_cons, hstep]
    simpa [List.append_assoc] using this

/-- Claim C6: for every set of concurrent neighbor-resolution requests
for the same {interface, protocol address} key (serialized by the single
processing context) hitting a cache with no entry for that key and small
enough to fit the pending-packet queue, exactly one resolution request is
transmitted, the requests are coalesced into a single INCOMPLETE entry
holding all packets in arrival order, and on the matching reply the
queued packets are flushed in FIFO order, every caller's packet going out
to the same resolved link address. -/
theorem nbr_coalescing (c : NbrCache) (k : NbrKey) (pkts : List Nat)
    (link : Nat) (hmiss : nbrFind c.entries k = none) (hne : pkts ≠ [])
    (hcap : pkts.length ≤ c.qcap) :
    (nbrResolveRun c k pkts).2 = 1 ∧
    nbrFind (nbrResolveRun c k pkts).1.entries k = some ⟨k, .INCOMPLETE pkts⟩ ∧
    (nbrOnReply (nbrResolveRun c k pkts).1 k link).2
      = pkts.map (fun p => (p, link)) ∧
    nbrFind (nbrOnReply (nbrResolveRun c k pkts).1 k link).1.entries k
      = some ⟨k, .REACHABLE link⟩ := by
  obtain ⟨p0, rest, rfl⟩ := List.exists_cons_of_ne_nil hne
  have hstep1 : nbrStep k (c, 0) p0
      = ({ c with entries := ⟨k, .INCOMPLETE [p0]⟩ :: c.entries }, 1) := by
    simp [nbrStep, nbrResolve, hmiss]
  have hf1 : nbrFind (NbrEntry.mk k (.INCOMPLETE [p0]) :: c.entries) k
      = some ⟨k, .INCOMPLETE [p0]⟩ := by
    simp [nbrFind]
  have hcap1 : ([p0] : List Nat).length + rest.length ≤ c.qcap := by
    simp only [List.length_cons, List.length_nil] at *
    omega
  have haux := nbrRun_aux k rest
    { c with entries := ⟨k, .INCOMPLETE [p0]⟩ :: c.entries } [p0] 1 hf1 hcap1
  have hrun : nbrResolveRun c k (p0 :: rest)
      = rest.foldl (nbrStep k)
          ({ c with entries := ⟨k, .INCOMPLETE [p0]⟩ :: c.entries }, 1) := by
    simp [nbrResolveRun, List.foldl_cons, hstep1]
  rw [hrun]
  obtain ⟨hn, hq, hf⟩ := haux
  have hfl : (p0 :: rest) = [p0] ++ rest := rfl
  rw [← hfl] at hf
  refine ⟨hn, hf, ?_, ?_⟩
  · simp [nbrOnReply, hf]
  · simp only [nbrOnReply, hf]
    exact nbrFind_replace _ _ _ (by simp [hf]) rfl

/-- Witness for `nbr_coalescing`: three concurrent requests for the same
neighbor on an empty cache of queue capacity 4 send one request, build
one INCOMPLETE entry, and flush in FIFO order to link address 77. -/
theorem nbr_coalescing_witness :
    (nbrResolveRun ⟨[], 4⟩ ⟨1, 11⟩ [100, 200, 300]).2 = 1 ∧
    nbrFind (nbrResolveRun ⟨[], 4⟩ ⟨1, 11⟩ [100, 200, 300]).1.entries ⟨1, 11⟩
      = some ⟨⟨1, 11⟩, .INCOMPLETE [100, 200, 300]⟩ ∧
    (nbrOnReply (nbrResolveRun ⟨[], 4⟩ ⟨1, 11⟩ [100, 200, 300]).1 ⟨1, 11⟩ 77).2
      = [(100, 77), (200, 77), (300, 77)] ∧
    nbrFind
      (nbrOnReply (nbrResolveRun ⟨[], 4⟩ ⟨1, 11⟩ [100, 200, 300]).1
        ⟨1, 11⟩ 77).1.entries ⟨1, 11⟩ = some ⟨⟨1, 11⟩, .REACHABLE 77⟩ :=
  nbr_coalescing ⟨[], 4⟩ ⟨1, 11⟩ [100, 200, 300] 77 (by decide) (by decide)
    (by decide)

/-- Piecewise characterization of the all-failures DHCP lease history:
BOUND until the renewal timer fires at `T / 2`, RENEWING until the rebind
timer fires at `7 * T / 8`, REBINDING until expiry `T`, and INIT with the
address released from expiry on. -/
theorem dhcpRun_char (T : Nat) (hT : 8 ≤ T) (t : Nat) :
    dhcpRun T t =
      if t < T / 2 then ⟨.BOUND, true⟩
      else if t < 7 * T / 8 then ⟨.RENEWING, true⟩
      else if t < T then ⟨.REBINDING, true⟩
      else ⟨.INIT, false⟩ := by
  induction t with
  | zero =>
    have h1 : 0 < T / 2 := by omega
    simp [dhcpRun, h1]
  | succ t ih =>
    have h2 : T / 2 < 7 * T / 8 := by omega
    have h3 : 7 * T / 8 < T := by omega
    show dhcpTick T (dhcpRun T t) (t + 1) false false = _
    rw [ih]
    split_ifs with ha hb hc <;>
      simp only [dhcpTick] <;>
      first
        | rfl
        | (split_ifs <;> first | rfl | (exfalso; omega) | (exfalso; simp_all))
        | (exfalso; omega)

/-- Claim C7: for every DHCP lease of duration `T` (at least 8 seconds,
so that the timer fractions are meaningful), with neither renewal nor
rebind succeeding: the interface stays BOUND strictly before `T / 2`; the
renewal attempt starts at second `T / 2` (second 1800 for `T = 3600`);
the rebind attempt starts at second `7 * T / 8` (second 3150 for
`T = 3600`); and from lease expiry `T` on, the address is released and
the interface's state machine is back in INIT. -/
theorem dhcp_lease_timers (T : Nat) (hT : 8 ≤ T) :
    (∀ t, t < T / 2 → (dhcpRun T t).st = .BOUND) ∧
    (dhcpRun T (T / 2)).st = .RENEWING ∧
    (∀ t, T / 2 ≤ t → t < 7 * T / 8 → (dhcpRun T t).st = .RENEWING) ∧
    (dhcpRun T (7 * T / 8)).st = .REBINDING ∧
    (∀ t, 7 * T / 8 ≤ t → t < T → (dhcpRun T t).st = .REBINDING) ∧
    (∀ t, T ≤ t → dhcpRun T t = ⟨.INIT, false⟩) := by
  have h2 : T / 2 < 7 * T / 8 := by omega
  have h3 : 7 * T / 8 < T := by omega
  refine ⟨fun t ht => ?_, ?_, fun t ht1 ht2 => ?_, ?_, fun t ht1 ht2 => ?_,
    fun t ht => ?_⟩ <;>
    rw [dhcpRun_char T hT]
  · rw [if_pos ht]
  · rw [if_neg (by omega), if_pos (by omega)]
  · rw [if_neg (by omega), if_pos (by omega)]
  · rw [if_neg (by omega), if_neg (by omega), if_pos (by omega)]
  · rw [if_neg (by omega), if_neg (by omega), if_pos (by omega)]
  · rw [if_neg (by omega), if_neg (by omega), if_neg (by omega)]

/-- Witness for `dhcp_lease_timers` at the lease duration 3600 seconds of
the design document's example. -/
theorem dhcp_lease_timers_witness :
    (dhcpRun 3600 1799).st = .BOUND ∧
    (dhcpRun 3600 (3600 / 2)).st = .RENEWING ∧
    (dhcpRun 3600 (7 * 3600 / 8)).st = .REBINDING ∧
    dhcpRun 3600 3600 = ⟨.INIT, false⟩ := by
  have h := dhcp_lease_timers 3600 (by decide)
  exact ⟨h.1 1799 (by decide), h.2.1, h.2.2.2.1, h.2.2.2.2.2 3600 (by decide)⟩

end Osbyte
